import Mathlib

/-!
Verification development for the dependency-graph visualizer (src/main.py).

Python strings are modelled as lists of characters (`Str`), Python dicts
from package name to a list of names as insertion-ordered association
lists (`Dict`) whose update operations mirror dict semantics (replace
the value at the first matching key, append a fresh key at the end).
Python sets that are only queried for membership are modelled as lists;
the one place the source enumerates a set (the cycle message built from
`list(path)` in `build_dependency_graph`) is modelled by an explicit
enumeration parameter `enum`, because Python set iteration order is
hash-dependent and guarantees only that it yields a permutation of the
set elements.
-/

/-- Package names and rendered text: Python `str` as a list of characters. -/
abbrev Str : Type := List Char

/-- Python `Dict[str, List[str]]` in insertion order. -/
abbrev Dict : Type := List (Str × List Str)

/-- `g.get(k)`: value at the first entry whose key is `k`. -/
def lookupA (g : Dict) (k : Str) : Option (List Str) :=
  (g.find? (fun p => p.1 == k)).map Prod.snd

/-- `g[k] = v` on a dict: replace the value at the first entry with key
`k` keeping its position, or append a new entry at the end. -/
def insertD : Dict → Str → List Str → Dict
  | [], k, v => [(k, v)]
  | e :: rest, k, v => if e.1 = k then (k, v) :: rest else e :: insertD rest k v

/-- The keys of an association list, in order. -/
def keysA (g : Dict) : List Str := g.map Prod.fst

/-- `filter_substr and filter_substr in name` (src/main.py lines 145, 152,
193, 200): the filter is non-empty and occurs as a contiguous substring. -/
def matchesFilter (f name : Str) : Bool := decide (f ≠ [] ∧ f <:+: name)

/-- `repo.get(start_pkg, [])` followed by the neighbor filter
(src/main.py lines 151-152). -/
def filteredDeps (repo : Dict) (f : Str) (pkg : Str) : List Str :=
  ((lookupA repo pkg).getD []).filter (fun d => ! matchesFilter f d)

/-- `" -> ".join(names)`. -/
def joinArrow : List Str → Str
  | [] => []
  | [x] => x
  | x :: y :: rest => x ++ (" -> ".toList) ++ joinArrow (y :: rest)

/-- The cycle message of src/main.py lines 142-143: the literal prefix is
the Russian word for cycle as printed by the program. -/
def cycleMsg (names : List Str) : Str := "Цикл: ".toList ++ joinArrow names

/-- Result of one traversal.  The source function returns the pair
`(graph, cycles)`; `writes` is ghost instrumentation recording, in order,
every node for which the line `graph[start_pkg] = filtered_deps`
(src/main.py line 153) executes, i.e. every node that gets expanded.  It
has no influence on `graph` or `cycles`. -/
structure BuildResult where
  graph : Dict
  cycles : List Str
  writes : List Str
deriving Repr, DecidableEq

/-- Core of `build_dependency_graph` (src/main.py lines 121-166).
`fuel` stands for `max_depth + 1 - current_depth`, so `fuel = 0` holds
exactly when the depth guard `current_depth > max_depth` fires, and each
recursive call at `current_depth + 1` runs at `fuel - 1`.  `enum` models
the iteration order of `list(path)` on the Python set `path`: any
function returning a permutation of the stored insertion-ordered list is
an admissible behavior.  Each recursive call receives the current
`visited` and `path` values unchanged (the source passes
`visited.copy()` and `path.copy()`, so mutations inside a child are
invisible to the parent and to siblings), while `graph` is threaded
through the loop (the source mutates one shared dict).  The final
`path.remove(start_pkg)` of the source only mutates the callee-local
copy and is therefore a no-op for the caller. -/
def bdgNode (repo : Dict) (enum : List Str → List Str) (f : Str) :
    Nat → Str → List Str → List Str → Dict → BuildResult
  | 0, _, _, _, g => ⟨g, [], []⟩
  | fuel + 1, start_pkg, visited, path, g =>
    if start_pkg ∈ path then
      ⟨g, [cycleMsg (enum path ++ [start_pkg])], []⟩
    else if matchesFilter f start_pkg then
      ⟨g, [], []⟩
    else if start_pkg ∈ visited then
      ⟨g, [], []⟩
    else
      let fdeps := filteredDeps repo f start_pkg
      let g1 := insertD g start_pkg fdeps
      let visited1 := start_pkg :: visited
      let path1 := path ++ [start_pkg]
      let r := fdeps.foldl
        (fun (acc : BuildResult) dep =>
          let s := bdgNode repo enum f fuel dep visited1 path1 acc.graph
          ⟨s.graph, acc.cycles ++ s.cycles, acc.writes ++ s.writes⟩)
        ⟨g1, [], []⟩
      ⟨r.graph, r.cycles, start_pkg :: r.writes⟩

/-- `build_dependency_graph(start_pkg, repo, max_depth, filter_substr)`
with the default arguments `visited=None, path=None, current_depth=0,
graph=None` (src/main.py lines 121-166). -/
def build_dependency_graph (repo : Dict) (enum : List Str → List Str)
    (f : Str) (start_pkg : Str) (max_depth : Nat) : BuildResult :=
  bdgNode repo enum f (max_depth + 1) start_pkg [] [] []

/-- `build_reverse_graph` (src/main.py lines 169-214) is a verbatim copy
of `build_dependency_graph` with `repo` renamed to `reverse_repo` and
`dep` to `parent`; it is embedded by instantiating the same recursion. -/
def build_reverse_graph (reverse_repo : Dict) (enum : List Str → List Str)
    (f : Str) (start_pkg : Str) (max_depth : Nat) : BuildResult :=
  bdgNode reverse_repo enum f (max_depth + 1) start_pkg [] [] []

/-- `build_reverse_index` inner update (src/main.py line 117):
`reverse.setdefault(dep, []).append(pkg)`. -/
def revIns : Dict → Str → Str → Dict
  | [], dep, pkg => [(dep, [pkg])]
  | e :: rest, dep, pkg =>
    if e.1 = dep then (e.1, e.2 ++ [pkg]) :: rest else e :: revIns rest dep pkg

/-- `build_reverse_index(repo)` (src/main.py lines 113-118): iterate the
forward mapping in insertion order and record each dependent. -/
def build_reverse_index (repo : Dict) : Dict :=
  repo.foldl (fun rev pr => pr.2.foldl (fun r d => revIns r d pr.1) rev) []

/-- The (package, dependency) edge pairs of a forward mapping. -/
def fwdPairs (repo : Dict) : List (Str × Str) :=
  repo.flatMap (fun pr => pr.2.map (fun d => (pr.1, d)))

/-- The (package, dependency) pairs read back from a reverse mapping:
each entry `p` of `reverse[d]` is reinterpreted as the pair `(p, d)`. -/
def revPairs (rev : Dict) : List (Str × Str) :=
  rev.flatMap (fun pr => pr.2.map (fun p => (p, pr.1)))

/-- Core of `_print_ascii_tree` (src/main.py lines 217-246), producing the
printed lines.  `fuel` stands for `max_depth + 1 - depth`, so `fuel = 0`
holds exactly when the guard `depth > max_depth` fires.  The render-time
`visited` set is one shared mutable set in the source, so it is threaded
through the loop and returned.  The loop state is
`(index, lines so far, visited)`; `child_last` is
`i == len(children) - 1`.  A child already in `visited` is printed as an
annotated leaf (the literal Russian suffix the program prints) and is not
recursed into nor added to `visited`; otherwise it is added to `visited`
and recursed into at `depth + 1`. -/
def renderNode (graph : Dict) :
    Nat → Str → List Str → Str → Bool → List Str × List Str
  | 0, _, visited, _, _ => ([], visited)
  | fuel + 1, node, visited, pre, isLast =>
    let connector := if isLast then "└── ".toList else "├── ".toList
    let line := pre ++ connector ++ node
    let children := (lookupA graph node).getD []
    let newPre := pre ++ (if isLast then "    ".toList else "│   ".toList)
    let n := children.length
    let st := children.foldl
      (fun (st : Nat × List Str × List Str) child =>
        let childLast := st.1 + 1 == n
        if child ∈ st.2.2 then
          let ref := if childLast then "└── ".toList else "├── ".toList
          (st.1 + 1,
           st.2.1 ++ [newPre ++ ref ++ child ++ " (уже показан выше)".toList],
           st.2.2)
        else
          let r := renderNode graph fuel child (child :: st.2.2) newPre childLast
          (st.1 + 1, st.2.1 ++ r.1, r.2))
      (0, [], visited)
    (line :: st.2.1, st.2.2)

/-- `print_ascii_tree(graph, start_pkg, max_depth)`
(src/main.py lines 249-262), producing the printed lines.  The start node
is printed bare; when it has a recorded non-empty neighbor list, the
visited set is seeded with the start node only, and each direct child is
passed to `_print_ascii_tree` at depth 1 (fuel `max_depth`) without any
visited check and without being added to the visited set; otherwise a
placeholder line is printed. -/
def print_ascii_tree (graph : Dict) (start_pkg : Str) (max_depth : Nat) :
    List Str :=
  match lookupA graph start_pkg with
  | some children =>
    if children = [] then [start_pkg, "  (нет зависимостей)".toList]
    else
      let n := children.length
      let st := children.foldl
        (fun (st : Nat × List Str × List Str) child =>
          let isLast := st.1 + 1 == n
          let r := renderNode graph max_depth child st.2.2 [] isLast
          (st.1 + 1, st.2.1 ++ r.1, r.2))
        (0, [], [start_pkg])
      start_pkg :: st.2.1
  | none => [start_pkg, "  (нет зависимостей)".toList]

/-- Python `line.strip()`. -/
def stripStr (l : Str) : Str :=
  ((l.dropWhile Char.isWhitespace).reverse.dropWhile Char.isWhitespace).reverse

/-- The part of `l` before the first occurrence of `c` (all of `l` when
`c` is absent): `l.split(c)[0]` and the first component of
`l.split(c, 1)`. -/
def beforeFirst (c : Char) (l : Str) : Str := l.takeWhile (· ≠ c)

/-- The part of `l` after the first occurrence of `c` (empty when `c` is
absent): the second component of `l.split(c, 1)`. -/
def afterFirst (c : Char) (l : Str) : Str := (l.dropWhile (· ≠ c)).drop 1

/-- Dependency-token normalization of src/main.py lines 60-61:
`clean_dep = dep.split(':', 1)[-1] if ':' in dep else dep` followed by
`clean_dep = clean_dep.split('=')[0]`.  `split(':', 1)[-1]` is the part
after the FIRST colon. -/
def normalizeDep (dep : Str) : Str :=
  beforeFirst '=' (if ':' ∈ dep then afterFirst ':' dep else dep)

/-- Python `value.split()`: split on whitespace runs, dropping empties.
The second argument accumulates the current word reversed. -/
def splitWsAux : Str → Str → List Str
  | [], acc => if acc = [] then [] else [acc.reverse]
  | c :: rest, acc =>
    if c.isWhitespace then
      if acc = [] then splitWsAux rest [] else acc.reverse :: splitWsAux rest []
    else splitWsAux rest (c :: acc)

/-- Python `value.split()` with no separator argument. -/
def splitWs (l : Str) : List Str := splitWsAux l []

/-- The `current_pkg` dict of `parse_apkindex`: the value at key `'P'`,
the value at key `'depends'`, and the other keys stored verbatim by the
final `else` branch (src/main.py line 66), which are never read. -/
structure PkgRec where
  pvalue : Option Str
  depends : Option (List Str)
  others : List (Str × Str)
deriving Repr, DecidableEq

/-- `current_pkg = {}`. -/
def emptyPkg : PkgRec := ⟨none, none, []⟩

/-- The loop state of `parse_apkindex`: `packages`, `current_pkg`,
`current_name`. -/
structure PState where
  packages : Dict
  cur : PkgRec
  name : Option Str
deriving Repr, DecidableEq

/-- The commit step of src/main.py lines 43-44 and 68-69:
`if current_name and 'P' in current_pkg: packages[current_name] =
current_pkg.get('depends', [])`.  `current_name` is truthy only when it
is a non-empty string. -/
def commitRec (st : PState) : Dict :=
  match st.name with
  | some n =>
    if n ≠ [] ∧ st.cur.pvalue.isSome then
      insertD st.packages n (st.cur.depends.getD [])
    else st.packages
  | none => st.packages

/-- One iteration of the `parse_apkindex` line loop after `line.strip()`
(src/main.py lines 42-66).  A blank line commits the current record and
resets the state; a line without a colon is skipped; a `P` line replaces
the whole current record with `{'P': value}` and sets `current_name`; a
`D` line stores the normalized token list under `depends`, dropping
tokens that normalize to the empty string or to `current_name`; any
other line stores its key and value verbatim. -/
def parseLineCore (st : PState) (line : Str) : PState :=
  if line = [] then ⟨commitRec st, emptyPkg, none⟩
  else if ':' ∉ line then st
  else
    let key := beforeFirst ':' line
    let value := stripStr (afterFirst ':' line)
    if key = ['P'] then ⟨st.packages, ⟨some value, none, []⟩, some value⟩
    else if key = ['D'] then
      let deps := (splitWs value).foldl
        (fun (acc : List Str) dep =>
          let clean := normalizeDep dep
          if clean != [] &&
              (match st.name with | some n => clean != n | none => true) then
            acc ++ [clean]
          else acc) []
      ⟨st.packages, ⟨st.cur.pvalue, some deps, st.cur.others⟩, st.name⟩
    else
      ⟨st.packages,
       ⟨st.cur.pvalue, st.cur.depends, st.cur.others ++ [(key, value)]⟩,
       st.name⟩

/-- One iteration of the `parse_apkindex` line loop including
`line = line.strip()`. -/
def parseLine (st : PState) (raw : Str) : PState :=
  parseLineCore st (stripStr raw)

/-- `parse_apkindex(data)` (src/main.py lines 32-71) from the decoded,
split lines: fold the line step over the lines, then commit the trailing
record. -/
def parse_apkindex (lines : List Str) : Dict :=
  commitRec (lines.foldl parseLine ⟨[], emptyPkg, none⟩)

/-- The claim C3 normalization rule as the spec states it, for
comparison with `normalizeDep`: keep only the segment after the LAST
colon when one is present, then strip everything from the first `=`
onward. -/
def specNormalizeLast (dep : Str) : Str :=
  beforeFirst '='
    (if ':' ∈ dep then ((dep.reverse.takeWhile (· ≠ ':')).reverse) else dep)

/-- The part of `l` after the first occurrence of `c`, by direct
recursion (empty when `c` is absent). -/
def dropToFirst (c : Char) : Str → Str
  | [] => []
  | x :: xs => if x = c then xs else dropToFirst c xs

/-- The part of `l` before the first occurrence of `c`, by direct
recursion. -/
def takeToFirst (c : Char) : Str → Str
  | [] => []
  | x :: xs => if x = c then [] else x :: takeToFirst c xs

/-- The amended claim C3 normalization rule, written from the amended
spec words: keep only the part after the FIRST colon marker when one is
present, then strip everything from the first `=` onward. -/
def specNormalizeFirst (dep : Str) : Str :=
  takeToFirst '=' (if ':' ∈ dep then dropToFirst ':' dep else dep)

/-- Bounded reachability along filtered edges: `reachF n s t` holds when
`t` is reachable from `s` in at most `n` steps, each step moving from a
node to one of its `filteredDeps` neighbors.  This is the
ancestor-distance notion of claim C8. -/
def reachF (repo : Dict) (f : Str) : Nat → Str → Str → Bool
  | 0, s, t => s == t
  | n + 1, s, t => s == t || (filteredDeps repo f s).any (fun m => reachF repo f n m t)

/-- The traversal recursion with an explicit recursion budget `gas`, for
the termination claim C9.  Unlike `bdgNode`, the depth guard
`current_depth > max_depth` is kept as explicit data (`max_depth`,
`depth`), and `gas` counts the remaining allowed recursion depth: the
result is `none` when the recursion fails to bottom out within `gas`
nested calls.  Termination of the source recursion is the statement that
some finite gas always suffices. -/
def bdgGas (repo : Dict) (enum : List Str → List Str) (f : Str)
    (max_depth : Nat) :
    Nat → Nat → Str → List Str → List Str → Dict → Option (Dict × List Str)
  | 0, _, _, _, _, _ => none
  | gas + 1, depth, start_pkg, visited, path, g =>
    if max_depth < depth then some (g, [])
    else if start_pkg ∈ path then
      some (g, [cycleMsg (enum path ++ [start_pkg])])
    else if matchesFilter f start_pkg then some (g, [])
    else if start_pkg ∈ visited then some (g, [])
    else
      let fdeps := filteredDeps repo f start_pkg
      let g1 := insertD g start_pkg fdeps
      let visited1 := start_pkg :: visited
      let path1 := path ++ [start_pkg]
      fdeps.foldl
        (fun (acc : Option (Dict × List Str)) dep =>
          acc.bind (fun pr =>
            (bdgGas repo enum f max_depth gas (depth + 1) dep visited1 path1 pr.1).map
              (fun pr2 => (pr2.1, pr.2 ++ pr2.2))))
        (some (g1, []))

/-- Node name used in the concrete test inputs. -/
def sA : Str := ['A']

/-- Node name used in the concrete test inputs. -/
def sB : Str := ['B']

/-- Node name used in the concrete test inputs. -/
def sC : Str := ['C']

/-- Node name used in the concrete test inputs. -/
def sD : Str := ['D']

/-- Diamond with a back edge: two distinct paths `A-B-D` and `A-C-D`
reach `D`, and `D` points back at `A`. -/
def repoC1 : Dict := [(sA, [sB, sC]), (sB, [sD]), (sC, [sD]), (sD, [sA])]

/-- Three-cycle `A -> B -> C -> A`. -/
def repoC4 : Dict := [(sA, [sB]), (sB, [sC]), (sC, [sA])]

/-- The two-cycle forward map of claim C5. -/
def repo5 : Dict := [(sA, [sB]), (sB, [sA])]

/-- The Traversal Graph of the tree-rendering example of claim C2. -/
def g2 : Dict := [(sA, [sB, sC]), (sB, []), (sC, [sB])]

lemma takeWhile_ne_eq_takeToFirst (c : Char) :
    ∀ l : Str, l.takeWhile (· ≠ c) = takeToFirst c l := by
  intro l
  induction l with
  | nil => rfl
  | cons x xs ih =>
    by_cases h : x = c
    · subst h
      simp [List.takeWhile, takeToFirst]
    · simpa [List.takeWhile, takeToFirst, h] using ih

lemma dropWhile_ne_drop_eq_dropToFirst (c : Char) :
    ∀ l : Str, (l.dropWhile (· ≠ c)).drop 1 = dropToFirst c l := by
  intro l
  induction l with
  | nil => rfl
  | cons x xs ih =>
    by_cases h : x = c
    · subst h
      simp [List.dropWhile, dropToFirst]
    · simpa [List.dropWhile, dropToFirst, h] using ih

/-- A list permuting a two-element list is one of its two arrangements. -/
lemma perm_pair {α : Type} {a b : α} {l : List α} (h : l.Perm [a, b]) :
    l = [a, b] ∨ l = [b, a] := by
  match l, h.length_eq with
  | [x, y], _ =>
    have hx : x ∈ [a, b] := h.mem_iff.mp (by simp)
    rcases List.mem_pair.mp hx with hxa | hxb
    · subst hxa
      have : [y].Perm [b] := (List.perm_cons x).mp h
      exact Or.inl (by rw [List.perm_singleton.mp this])
    · subst hxb
      have h2 : [x, y].Perm [x, a] := h.trans (List.Perm.swap x a [])
      have : [y].Perm [a] := (List.perm_cons x).mp h2
      exact Or.inr (by rw [List.perm_singleton.mp this])

/-- C1: refuted on the code.  On the diamond-with-back-edge input, the
traversal started at `A` with depth 3 and no filter expands `D` twice
(once via `B`, once via `C`): the expansion trace contains `D` twice, so
the Traversal Graph key `D` is written twice and the back edge `D -> A`
is reported as a cycle once per expansion.  Each recursive call receives
`visited.copy()`, so a visit recorded in one branch is invisible to
sibling branches; the `start_pkg in visited` guard of line 148 can never
fire, because `visited` always equals `path` as sets when it is checked
and the Path-Set guard of line 141 precedes it. -/
theorem claim_C1_eval :
    (build_dependency_graph repoC1 id [] sA 3).writes = [sA, sB, sD, sC, sD] ∧
    ¬ (build_dependency_graph repoC1 id [] sA 3).writes.Nodup ∧
    (build_dependency_graph repoC1 id [] sA 3).cycles =
      ["Цикл: A -> B -> D -> A".toList, "Цикл: A -> C -> D -> A".toList] := by
  refine ⟨by decide, by decide, by decide⟩

/-- C2: refuted on the code.  On the spec's own example graph
`{A: [B, C], B: [], C: [B]}` rooted at `A`, the second occurrence of `B`
(under `C`) is printed fully, with no annotation: the top-level loop of
`print_ascii_tree` never adds the root's direct children to the
render-time visited set, so `B` is not in the set when it is reached
again under `C`.  No line of the output carries the
"already shown above" annotation. -/
theorem claim_C2_eval :
    print_ascii_tree g2 sA 5 =
      ["A".toList, "├── B".toList, "└── C".toList, "    └── B".toList] ∧
    (print_ascii_tree g2 sA 5).all
      (fun l => ! decide (" (уже показан выше)".toList <:+: l)) = true := by
  refine ⟨by decide, by decide⟩

/-- C3 counterexample: on the token `a:b:c=1` (two colon separators), the
normalization actually performed by `parse_apkindex` keeps everything
after the FIRST colon (`b:c`), not the final colon-delimited segment
(`c`) that the claim states. -/
theorem claim_C3_cex :
    normalizeDep "a:b:c=1".toList ≠ specNormalizeLast "a:b:c=1".toList ∧
    normalizeDep "a:b:c=1".toList = "b:c".toList ∧
    specNormalizeLast "a:b:c=1".toList = "c".toList ∧
    parse_apkindex ["P:x".toList, "D:a:b:c=1".toList] =
      [(['x'], ["b:c".toList])] := by
  refine ⟨by decide, by decide, by decide, by decide⟩

/-- C3 as amended: for every dependency token, `parse_apkindex`
normalizes it by keeping only the part after the FIRST `:` marker (when
one is present) and then stripping everything from the first `=` onward. -/
theorem claim_C3_amended :
    ∀ dep : Str, normalizeDep dep = specNormalizeFirst dep := by
  intro dep
  unfold normalizeDep specNormalizeFirst beforeFirst afterFirst
  rw [takeWhile_ne_eq_takeToFirst]
  by_cases h : ':' ∈ dep
  · rw [if_pos h, if_pos h, dropWhile_ne_drop_eq_dropToFirst]
  · rw [if_neg h, if_neg h]

/-- C3 amended, applied at a concrete token. -/
theorem claim_C3_witness :
    normalizeDep "a:b:c=1".toList = specNormalizeFirst "a:b:c=1".toList :=
  claim_C3_amended ("a:b:c=1".toList)

/-- C4: refuted on the code.  The Cycle Record is built from
`list(path)` where `path` is a Python set, so the names of the current
ancestor chain are emitted in set-iteration order, which is
hash-dependent and only guaranteed to be a permutation of the chain.
Under the admissible enumeration that yields the stored elements in
reverse, the three-cycle `A -> B -> C -> A` is recorded as
`C -> B -> A -> A`, which is not the root-to-node chain order the claim
requires. -/
theorem claim_C4_eval :
    (List.reverse [sA, sB, sC]).Perm [sA, sB, sC] ∧
    (build_dependency_graph repoC4 List.reverse [] sA 3).cycles =
      ["Цикл: C -> B -> A -> A".toList] ∧
    "Цикл: C -> B -> A -> A".toList ≠ "Цикл: A -> B -> C -> A".toList := by
  refine ⟨by decide, by decide, by decide⟩

/-- The traversal of claim C5 evaluated symbolically in the depth
`k + 2` and in the Path-Set enumeration `enum`: the graph holds exactly
the entries for `A` and `B`, one Cycle Record is produced from the
enumeration of the ancestor set `{A, B}` followed by the repeated node
`A`, and each node is expanded once. -/
lemma bdg5_eval (k : Nat) (enum : List Str → List Str) :
    build_dependency_graph repo5 enum [] sA (k + 2) =
      ⟨[(sA, [sB]), (sB, [sA])], [cycleMsg (enum [sA, sB] ++ [sA])],
       [sA, sB]⟩ := rfl

/-- C5: for the forward map `{A: [B], B: [A]}`, any traversal from `A`
with `max_depth ≥ 2`, under any admissible enumeration of the Path Set
(any function returning a permutation of the stored chain), returns a
Cycle Record mentioning both `A` and `B`, and the Traversal Graph
contains exactly one entry for `A`, whose value is `[B]`. -/
theorem claim_C5 (d : Nat) (hd : 2 ≤ d) (enum : List Str → List Str)
    (henum : (enum [sA, sB]).Perm [sA, sB]) :
    (∃ c ∈ (build_dependency_graph repo5 enum [] sA d).cycles,
        sA <:+: c ∧ sB <:+: c) ∧
    lookupA (build_dependency_graph repo5 enum [] sA d).graph sA = some [sB] ∧
    ((build_dependency_graph repo5 enum [] sA d).graph.countP
        (fun p => p.1 == sA)) = 1 := by
  obtain ⟨k, rfl⟩ : ∃ k, d = k + 2 := ⟨d - 2, by omega⟩
  rw [bdg5_eval k enum]
  rcases perm_pair henum with h | h <;> rw [h] <;> exact ⟨by decide, by decide, by decide⟩

/-- C5 applied at depth 2 with the identity enumeration. -/
theorem claim_C5_witness :
    (∃ c ∈ (build_dependency_graph repo5 id [] sA 2).cycles,
        sA <:+: c ∧ sB <:+: c) ∧
    lookupA (build_dependency_graph repo5 id [] sA 2).graph sA = some [sB] ∧
    ((build_dependency_graph repo5 id [] sA 2).graph.countP
        (fun p => p.1 == sA)) = 1 :=
  claim_C5 2 (by decide) id (List.Perm.refl _)

/-- C10: a `P` line discards everything accumulated for the current
record.  In general, the line step on any state and any `P` line
resets the current record to one holding only the package name and
leaves the committed packages untouched; consequently a `D` line
preceding the `P` line of its record contributes nothing (the committed
package gets an empty dependency list), and a record interrupted by a
new `P` line with no blank line in between is never committed. -/
theorem claim_C10 :
    (∀ (st : PState) (v : Str),
        parseLineCore st ('P' :: ':' :: v) =
          ⟨st.packages, ⟨some (stripStr v), none, []⟩, some (stripStr v)⟩) ∧
    parse_apkindex ["D:x".toList, "P:a".toList, []] = [(['a'], [])] ∧
    parse_apkindex ["P:a".toList, "D:x".toList, "P:b".toList] =
      [(['b'], [])] := by
  refine ⟨fun st v => rfl, by decide, by decide⟩

/-- C10's step property applied at a concrete state and line. -/
theorem claim_C10_witness :
    parseLineCore ⟨[], ⟨none, some [['x']], []⟩, none⟩ ('P' :: ':' :: ['a']) =
      ⟨[], ⟨some ['a'], none, []⟩, some ['a']⟩ :=
  claim_C10.1 ⟨[], ⟨none, some [['x']], []⟩, none⟩ ['a']

lemma revPairs_revIns (rev : Dict) (d p : Str) :
    (revPairs (revIns rev d p)).Perm ((p, d) :: revPairs rev) := by
  induction rev with
  | nil => simp [revIns, revPairs]
  | cons e rest ih =>
    by_cases h : e.1 = d
    · obtain ⟨k, v⟩ := e
      simp only at h
      subst h
      simp only [revIns, revPairs, List.flatMap_cons, List.map_append,
        List.map_cons, List.map_nil, List.append_assoc, List.singleton_append,
        eq_self_iff_true, if_true]
      exact List.perm_middle
    · simp only [revIns, if_neg h, revPairs, List.flatMap_cons]
      exact (List.Perm.append_left _ ih).trans List.perm_middle

lemma revPairs_foldDeps (ds : List Str) :
    ∀ (rev : Dict) (p : Str),
      (revPairs (ds.foldl (fun r d => revIns r d p) rev)).Perm
        (ds.map (fun d => (p, d)) ++ revPairs rev) := by
  induction ds with
  | nil => intro rev p; simp
  | cons d ds ih =>
    intro rev p
    simp only [List.foldl_cons, List.map_cons, List.cons_append]
    exact (ih _ p).trans
      ((List.Perm.append_left _ (revPairs_revIns rev d p)).trans List.perm_middle)

lemma revPairs_buildAux (repo : Dict) :
    ∀ rev : Dict,
      (revPairs (repo.foldl
          (fun rev pr => pr.2.foldl (fun r d => revIns r d pr.1) rev) rev)).Perm
        (fwdPairs repo ++ revPairs rev) := by
  induction repo with
  | nil => intro rev; simp [fwdPairs]
  | cons pr repo ih =>
    intro rev
    simp only [List.foldl_cons, fwdPairs, List.flatMap_cons, List.append_assoc]
    refine (ih _).trans ?_
    refine (List.Perm.append_left _ (revPairs_foldDeps pr.2 rev pr.1)).trans ?_
    rw [← List.append_assoc, ← List.append_assoc]
    exact List.Perm.append_right _ List.perm_append_comm

lemma revIns_vals (rev : Dict) (d p : Str)
    (h : ∀ e ∈ rev, e.2 ≠ []) : ∀ e ∈ revIns rev d p, e.2 ≠ [] := by
  induction rev with
  | nil => simp [revIns]
  | cons e0 rest ih =>
    intro e he
    by_cases hk : e0.1 = d
    · simp only [revIns, if_pos hk, List.mem_cons] at he
      rcases he with he | he
      · subst he; simp
      · exact h e (List.mem_cons_of_mem _ he)
    · simp only [revIns, if_neg hk, List.mem_cons] at he
      rcases he with he | he
      · subst he; exact h e (List.mem_cons_self _ _)
      · exact ih (fun x hx => h x (List.mem_cons_of_mem _ hx)) e he

lemma foldDeps_vals (ds : List Str) :
    ∀ (rev : Dict) (p : Str), (∀ e ∈ rev, e.2 ≠ []) →
      ∀ e ∈ ds.foldl (fun r d => revIns r d p) rev, e.2 ≠ [] := by
  induction ds with
  | nil => intro rev p h; simpa using h
  | cons d ds ih =>
    intro rev p h
    simp only [List.foldl_cons]
    exact ih _ p (revIns_vals rev d p h)

/-- C6: inverting the Reverse Index reproduces exactly the (package,
dependency) pairs of the forward input (as a multiset of edges), and
every key of the Reverse Index has at least one dependent. -/
theorem claim_C6 (repo : Dict) :
    (revPairs (build_reverse_index repo)).Perm (fwdPairs repo) ∧
    ∀ e ∈ build_reverse_index repo, e.2 ≠ [] := by
  constructor
  · have h := revPairs_buildAux repo []
    simpa [revPairs] using h
  · have h : ∀ rev : Dict, (∀ e ∈ rev, e.2 ≠ []) →
        ∀ e ∈ repo.foldl
          (fun rev pr => pr.2.foldl (fun r d => revIns r d pr.1) rev) rev,
          e.2 ≠ [] := by
      induction repo with
      | nil => intro rev h; simpa using h
      | cons pr repo ih =>
        intro rev hrev
        simp only [List.foldl_cons]
        exact ih _ (foldDeps_vals pr.2 rev pr.1 hrev)
    exact h [] (by simp)

/-- C6 applied at the concrete forward map with a single edge. -/
theorem claim_C6_witness :
    (revPairs (build_reverse_index [(sA, [sB])])).Perm
      (fwdPairs [(sA, [sB])]) ∧ [sA] ≠ ([] : List Str) :=
  ⟨(claim_C6 [(sA, [sB])]).1,
   (claim_C6 [(sA, [sB])]).2 (sB, [sA]) (by decide)⟩

/-- A graph in which no key and no recorded neighbor contains the filter
string as a substring. -/
def CleanG (f : Str) (g : Dict) : Prop :=
  ∀ p ∈ g, ¬ f <:+: p.1 ∧ ∀ d ∈ p.2, ¬ f <:+: d

lemma notMatchesSubstring {f s : Str} (hf : f ≠ [])
    (h : ¬ matchesFilter f s = true) : ¬ f <:+: s :=
  fun hinf => h (by simp [matchesFilter, hf, hinf])

lemma filteredDeps_clean (repo : Dict) (f pkg : Str) (hf : f ≠ []) :
    ∀ d ∈ filteredDeps repo f pkg, ¬ f <:+: d := by
  intro d hd hinf
  have h2 := (List.mem_filter.mp hd).2
  simp [matchesFilter, hf, hinf] at h2

lemma cleanG_insertD {f : Str} {g : Dict} {a : Str} {v : List Str}
    (hg : CleanG f g) (ha : ¬ f <:+: a) (hv : ∀ d ∈ v, ¬ f <:+: d) :
    CleanG f (insertD g a v) := by
  induction g with
  | nil =>
    intro p hp
    simp only [insertD, List.mem_singleton] at hp
    subst hp
    exact ⟨ha, hv⟩
  | cons e rest ih =>
    intro p hp
    by_cases hk : e.1 = a
    · simp only [insertD, if_pos hk, List.mem_cons] at hp
      rcases hp with hp | hp
      · subst hp; exact ⟨ha, hv⟩
      · exact hg p (List.mem_cons_of_mem _ hp)
    · simp only [insertD, if_neg hk, List.mem_cons] at hp
      rcases hp with hp | hp
      · subst hp; exact hg p (List.mem_cons_self _ _)
      · exact ih (fun x hx => hg x (List.mem_cons_of_mem _ hx)) p hp

lemma foldl_build_inv (P : Dict → Prop) (step : BuildResult → Str → BuildResult)
    (hstep : ∀ acc d, P acc.graph → P (step acc d).graph) :
    ∀ (ds : List Str) (acc : BuildResult),
      P acc.graph → P (ds.foldl step acc).graph := by
  intro ds
  induction ds with
  | nil => intro acc h; exact h
  | cons d ds ih => intro acc h; exact ih _ (hstep acc d h)

lemma bdgNode_clean (repo : Dict) (enum : List Str → List Str) {f : Str}
    (hf : f ≠ []) :
    ∀ (fuel : Nat) (start : Str) (visited path : List Str) (g : Dict),
      CleanG f g →
      CleanG f (bdgNode repo enum f fuel start visited path g).graph := by
  intro fuel
  induction fuel with
  | zero => intro start visited path g hg; exact hg
  | succ n ih =>
    intro start visited path g hg
    simp only [bdgNode]
    split
    · exact hg
    split
    · exact hg
    split
    · exact hg
    next hpath hmatch hvis =>
      apply foldl_build_inv (CleanG f)
      · exact fun acc d hacc =>
          ih d (start :: visited) (path ++ [start]) acc.graph hacc
      · exact cleanG_insertD hg (notMatchesSubstring hf hmatch)
          (filteredDeps_clean repo f start hf)

/-- C7: with a non-empty exclusion filter, no name containing the filter
as a substring appears in the Traversal Graph, neither as a key nor
inside any recorded neighbor list. -/
theorem claim_C7 (repo : Dict) (enum : List Str → List Str) (f start : Str)
    (max_depth : Nat) (hf : f ≠ []) :
    ∀ p ∈ (build_dependency_graph repo enum f start max_depth).graph,
      ¬ f <:+: p.1 ∧ ∀ d ∈ p.2, ¬ f <:+: d :=
  bdgNode_clean repo enum hf (max_depth + 1) start [] [] []
    (by intro p hp; simp at hp)

/-- C7 applied at a concrete traversal with filter `x`. -/
theorem claim_C7_witness :
    (['x'] : Str) ≠ [] ∧
    ¬ (['x'] : Str) <:+: sA ∧ ∀ d ∈ [sB], ¬ (['x'] : Str) <:+: d :=
  ⟨by decide,
   claim_C7 [(sA, [sB])] id ['x'] sA 1 (by decide) (sA, [sB]) (by decide)⟩

lemma keysA_insertD {g : Dict} {a : Str} {v : List Str} {k : Str}
    (h : k ∈ keysA (insertD g a v)) : k = a ∨ k ∈ keysA g := by
  induction g with
  | nil =>
    simp only [insertD, keysA, List.map_cons, List.map_nil,
      List.mem_singleton] at h
    exact Or.inl h
  | cons e rest ih =>
    by_cases hk : e.1 = a
    · simp only [insertD, if_pos hk, keysA, List.map_cons, List.mem_cons] at h ⊢
      rcases h with h | h
      · exact Or.inl h
      · exact Or.inr (Or.inr h)
    · simp only [insertD, if_neg hk, keysA, List.map_cons, List.mem_cons] at h ⊢
      rcases h with h | h
      · exact Or.inr (Or.inl h)
      · rcases ih h with h1 | h1
        · exact Or.inl h1
        · exact Or.inr (Or.inr h1)

lemma reachF_refl (repo : Dict) (f : Str) :
    ∀ (n : Nat) (s : Str), reachF repo f n s s = true := by
  intro n s
  cases n <;> simp [reachF]

lemma reachF_step (repo : Dict) (f : Str) {n : Nat} {s d t : Str}
    (hd : d ∈ filteredDeps repo f s) (h : reachF repo f n d t = true) :
    reachF repo f (n + 1) s t = true := by
  simp only [reachF, Bool.or_eq_true, List.any_eq_true]
  exact Or.inr ⟨d, hd, h⟩

lemma foldl_build_keys (step : BuildResult → Str → BuildResult)
    (Q : Str → Str → Prop)
    (hstep : ∀ acc d k, k ∈ keysA (step acc d).graph →
      k ∈ keysA acc.graph ∨ Q d k) :
    ∀ (ds : List Str) (acc : BuildResult) (k : Str),
      k ∈ keysA (ds.foldl step acc).graph →
      k ∈ keysA acc.graph ∨ ∃ d ∈ ds, Q d k := by
  intro ds
  induction ds with
  | nil => intro acc k h; exact Or.inl h
  | cons d ds ih =>
    intro acc k h
    rcases ih _ k h with h1 | ⟨d1, hd1, hq⟩
    · rcases hstep acc d k h1 with h2 | hq
      · exact Or.inl h2
      · exact Or.inr ⟨d, List.mem_cons_self _ _, hq⟩
    · exact Or.inr ⟨d1, List.mem_cons_of_mem _ hd1, hq⟩

lemma bdgNode_keys (repo : Dict) (enum : List Str → List Str) (f : Str) :
    ∀ (fuel : Nat) (cur : Str) (visited path : List Str) (g : Dict) (k : Str),
      k ∈ keysA (bdgNode repo enum f fuel cur visited path g).graph →
      k ∈ keysA g ∨ (fuel ≠ 0 ∧ reachF repo f (fuel - 1) cur k = true) := by
  intro fuel
  induction fuel with
  | zero => intro cur visited path g k h; exact Or.inl h
  | succ n ih =>
    intro cur visited path g k h
    simp only [bdgNode] at h
    split at h
    · exact Or.inl h
    split at h
    · exact Or.inl h
    split at h
    · exact Or.inl h
    obtain h2 | ⟨d, hd, hn0, hr⟩ := foldl_build_keys
      (fun (acc : BuildResult) dep =>
        let s := bdgNode repo enum f n dep (cur :: visited) (path ++ [cur]) acc.graph
        ⟨s.graph, acc.cycles ++ s.cycles, acc.writes ++ s.writes⟩)
      (fun d k => n ≠ 0 ∧ reachF repo f (n - 1) d k = true)
      (fun acc d k1 hk => ih d (cur :: visited) (path ++ [cur]) acc.graph k1 hk)
      (filteredDeps repo f cur) ⟨insertD g cur (filteredDeps repo f cur), [], []⟩
      k h
    · rcases keysA_insertD h2 with rfl | h3
      · exact Or.inr ⟨Nat.succ_ne_zero n, by
          simpa using reachF_refl repo f n k⟩
      · exact Or.inl h3
    · have hn : n - 1 + 1 = n := Nat.succ_pred_eq_of_pos (Nat.pos_of_ne_zero hn0)
      have := reachF_step repo f hd hr
      rw [hn] at this
      exact Or.inr ⟨Nat.succ_ne_zero n, by simpa using this⟩

/-- C8: every key of the Traversal Graph is reachable from the start
node within `max_depth` steps along filtered edges; no entry is written
for a node only reachable at depth exceeding `max_depth`. -/
theorem claim_C8 (repo : Dict) (enum : List Str → List Str) (f start : Str)
    (max_depth : Nat) (k : Str)
    (h : k ∈ keysA (build_dependency_graph repo enum f start max_depth).graph) :
    reachF repo f max_depth start k = true := by
  rcases bdgNode_keys repo enum f (max_depth + 1) start [] [] [] k h with
    h1 | ⟨_, h2⟩
  · simp [keysA] at h1
  · simpa using h2

/-- C8 applied at a concrete traversal: `B` is a key of the graph built
from `A` at depth 1 and is indeed reachable within 1 step. -/
theorem claim_C8_witness :
    reachF [(sA, [sB])] [] 1 sA sB = true :=
  claim_C8 [(sA, [sB])] id [] sA 1 sB (by decide)

lemma foldl_gas_node (gchild : Str → Dict → Option (Dict × List Str))
    (nchild : Str → Dict → BuildResult)
    (hch : ∀ d g0, gchild d g0 = some ((nchild d g0).graph, (nchild d g0).cycles)) :
    ∀ (ds : List Str) (g0 : Dict) (c0 w0 : List Str),
      ds.foldl
        (fun (acc : Option (Dict × List Str)) dep =>
          acc.bind (fun pr =>
            (gchild dep pr.1).map (fun pr2 => (pr2.1, pr.2 ++ pr2.2))))
        (some (g0, c0)) =
      some (((ds.foldl
          (fun (acc : BuildResult) dep =>
            let s := nchild dep acc.graph
            ⟨s.graph, acc.cycles ++ s.cycles, acc.writes ++ s.writes⟩)
          ⟨g0, c0, w0⟩)).graph,
        ((ds.foldl
          (fun (acc : BuildResult) dep =>
            let s := nchild dep acc.graph
            ⟨s.graph, acc.cycles ++ s.cycles, acc.writes ++ s.writes⟩)
          ⟨g0, c0, w0⟩)).cycles) := by
  intro ds
  induction ds with
  | nil => intro g0 c0 w0; rfl
  | cons d ds ihd =>
    intro g0 c0 w0
    simp only [List.foldl_cons, Option.some_bind]
    rw [hch d g0]
    simp only [Option.map_some']
    exact ihd ((nchild d g0).graph) (c0 ++ (nchild d g0).cycles)
      (w0 ++ (nchild d g0).writes)

lemma bdgGas_eq (repo : Dict) (enum : List Str → List Str) (f : Str)
    (max_depth : Nat) :
    ∀ (gas : Nat) (depth : Nat) (start : Str) (visited path : List Str)
      (g : Dict),
      max_depth + 1 - depth < gas →
      bdgGas repo enum f max_depth gas depth start visited path g =
        some ((bdgNode repo enum f (max_depth + 1 - depth) start visited path g).graph,
              (bdgNode repo enum f (max_depth + 1 - depth) start visited path g).cycles) := by
  intro gas
  induction gas with
  | zero => intro depth start visited path g hg; exact absurd hg (Nat.not_lt_zero _)
  | succ gas ih =>
    intro depth start visited path g hg
    by_cases hd : max_depth < depth
    · have h0 : max_depth + 1 - depth = 0 := by omega
      rw [h0]
      simp [bdgGas, bdgNode, hd]
    · have h0 : max_depth + 1 - depth = (max_depth - depth) + 1 := by omega
      rw [h0]
      by_cases hp : start ∈ path
      · simp [bdgGas, bdgNode, hd, hp]
      by_cases hm : matchesFilter f start = true
      · simp [bdgGas, bdgNode, hd, hp, hm]
      by_cases hv : start ∈ visited
      · simp [bdgGas, bdgNode, hd, hp, hm, hv]
      simp only [bdgGas, bdgNode, if_neg hd, if_neg hp, if_neg hm, if_neg hv]
      exact foldl_gas_node
        (fun dep g0 => bdgGas repo enum f max_depth gas (depth + 1) dep
          (start :: visited) (path ++ [start]) g0)
        (fun dep g0 => bdgNode repo enum f (max_depth - depth) dep
          (start :: visited) (path ++ [start]) g0)
        (fun dep g0 => by
          have h1 := ih (depth + 1) dep (start :: visited) (path ++ [start]) g0
            (by omega)
          rwa [show max_depth + 1 - (depth + 1) = max_depth - depth by omega]
            at h1)
        (filteredDeps repo f start) (insertD g start (filteredDeps repo f start))
        [] []

/-- C9: the traversal recursion always terminates.  `bdgGas` runs the
source recursion of `build_dependency_graph` under an explicit recursion
budget and returns `none` when the budget is exhausted; a budget of
`max_depth + 2` nested calls always suffices and yields exactly the
`(graph, cycles)` pair of the traversal, for every finite neighbor
mapping (cyclic or not), every start package, every depth bound, every
filter and every Path-Set enumeration — and identically for
`build_reverse_graph`, whose body is a verbatim copy. -/
theorem claim_C9 (repo : Dict) (enum : List Str → List Str) (f start : Str)
    (max_depth : Nat) :
    bdgGas repo enum f max_depth (max_depth + 2) 0 start [] [] [] =
      some ((build_dependency_graph repo enum f start max_depth).graph,
            (build_dependency_graph repo enum f start max_depth).cycles) ∧
    bdgGas repo enum f max_depth (max_depth + 2) 0 start [] [] [] =
      some ((build_reverse_graph repo enum f start max_depth).graph,
            (build_reverse_graph repo enum f start max_depth).cycles) := by
  have h := bdgGas_eq repo enum f max_depth (max_depth + 2) 0 start [] [] []
    (by omega)
  constructor
  · simpa [build_dependency_graph] using h
  · simpa [build_reverse_graph] using h

/-- C9 applied at a concrete cyclic input. -/
theorem claim_C9_witness :
    bdgGas [(sA, [sB]), (sB, [sA])] id [] 2 4 0 sA [] [] [] =
      some ((build_dependency_graph [(sA, [sB]), (sB, [sA])] id [] sA 2).graph,
            (build_dependency_graph [(sA, [sB]), (sB, [sA])] id [] sA 2).cycles) ∧
    bdgGas [(sA, [sB]), (sB, [sA])] id [] 2 4 0 sA [] [] [] =
      some ((build_reverse_graph [(sA, [sB]), (sB, [sA])] id [] sA 2).graph,
            (build_reverse_graph [(sA, [sB]), (sB, [sA])] id [] sA 2).cycles) :=
  claim_C9 [(sA, [sB]), (sB, [sA])] id [] sA 2
